import Mathlib

set_option maxRecDepth 100000

/-!
Shallow embedding of the SHA-1 streaming hash engine from `src/sha1/src/lib.rs`.

Bytes and 32/64-bit machine words are modelled as `Nat`, with explicit
`% 2 ^ 32` / `% 2 ^ 64` reductions where the Rust code's fixed-width
arithmetic wraps.  The compression transform lives in `utils.rs` and the
block buffer in the `block_buffer` crate, neither of which is under `src/`;
those two pieces are modelled from the specification's §4.2 and §4.1 text.
-/

namespace Sha1Embed

/-- Circular left rotation of a 32-bit word by `k` bits. -/
def rotl (k x : Nat) : Nat := ((x <<< k) ||| (x >>> (32 - k))) % 2 ^ 32

/-- Modelled from the spec: the IV constants of `consts.rs` (not under `src/`):
`(0x67452301, 0xEFCDAB89, 0x98BADCFE, 0x10325476, 0xC3D2E1F0)`. -/
def H : List Nat := [0x67452301, 0xEFCDAB89, 0x98BADCFE, 0x10325476, 0xC3D2E1F0]

/-- Interpret a byte list as big-endian 32-bit words, four bytes per word
(step 1 of the spec's compression algorithm). -/
def blockWords : List Nat → List Nat
  | b0 :: b1 :: b2 :: b3 :: rest =>
      ((b0 <<< 24) ||| (b1 <<< 16) ||| (b2 <<< 8) ||| b3) :: blockWords rest
  | _ => []

/-- The round-dependent nonlinear function `f(t,b,c,d)` of FIPS 180-4. -/
def fval (t b c d : Nat) : Nat :=
  if t < 20 then (b &&& c) ||| ((b ^^^ 0xFFFFFFFF) &&& d)
  else if t < 40 then b ^^^ c ^^^ d
  else if t < 60 then (b &&& c) ||| (b &&& d) ||| (c &&& d)
  else b ^^^ c ^^^ d

/-- The round constant `k(t)` of FIPS 180-4. -/
def kval (t : Nat) : Nat :=
  if t < 20 then 0x5A827999
  else if t < 40 then 0x6ED9EBA1
  else if t < 60 then 0x8F1BBCDC
  else 0xCA62C1D6

/-- One step of the message-schedule expansion, on the reversed word list
(newest word first): prepends `rotl 1 (w[t-3] ^^^ w[t-8] ^^^ w[t-14] ^^^ w[t-16])`. -/
def schedStep (ws : List Nat) : List Nat :=
  rotl 1 ((ws.getD 2 0) ^^^ (ws.getD 7 0) ^^^ (ws.getD 13 0) ^^^ (ws.getD 15 0)) :: ws

/-- `iterN f n x` applies `f` to `x` `n` times. -/
def iterN (f : List Nat → List Nat) : Nat → List Nat → List Nat
  | 0, x => x
  | n + 1, x => f (iterN f n x)

/-- One SHA-1 round: working-variable update on the tuple `(a,b,c,d,e)`. -/
def roundStep (w : List Nat) (st : Nat × Nat × Nat × Nat × Nat) (t : Nat) :
    Nat × Nat × Nat × Nat × Nat :=
  match st with
  | (a, b, c, d, e) =>
      ((rotl 5 a + fval t b c d + e + kval t + w.getD t 0) % 2 ^ 32,
       a, rotl 30 b, c, d)

/-- Modelled from the spec: the SHA-1 compression transform of `utils.rs`
(not under `src/`), spec §4.2: 16 big-endian words, 64 schedule-expansion
steps, 80 rounds, then a final modular addition of the old state. -/
def compress (state block : List Nat) : List Nat :=
  let ws := blockWords block
  let w := (iterN schedStep 64 ws.reverse).reverse
  let st0 := (state.getD 0 0, state.getD 1 0, state.getD 2 0,
              state.getD 3 0, state.getD 4 0)
  let stf := (List.range 80).foldl (roundStep w) st0
  [(state.getD 0 0 + stf.1) % 2 ^ 32,
   (state.getD 1 0 + stf.2.1) % 2 ^ 32,
   (state.getD 2 0 + stf.2.2.1) % 2 ^ 32,
   (state.getD 3 0 + stf.2.2.2.1) % 2 ^ 32,
   (state.getD 4 0 + stf.2.2.2.2) % 2 ^ 32]

/-- The engine state of `struct Sha1`: five state words `h`, the 64-bit byte
counter `len`, and the partial-block byte buffer. -/
structure Sha1 where
  h : List Nat
  len : Nat
  buffer : List Nat
deriving DecidableEq

/-- `Default::default()`: IV state, zero length, empty buffer. -/
def Sha1.default : Sha1 := ⟨H, 0, []⟩

/-- Modelled from the spec: one byte of `BlockBuffer::input` (crate
`block_buffer`, not under `src/`), spec §4.1: append the byte to the buffer;
each time the buffer reaches exactly 64 bytes, compress it and empty the
buffer. -/
def feedByte (p : List Nat × List Nat) (b : Nat) : List Nat × List Nat :=
  if (p.2 ++ [b]).length = 64 then (compress p.1 (p.2 ++ [b]), [])
  else (p.1, p.2 ++ [b])

/-- `Update::update`: add the input length to `len` (wrapping mod `2 ^ 64`)
and feed the bytes through the block buffer. -/
def update (s : Sha1) (input : List Nat) : Sha1 :=
  ⟨(input.foldl feedByte (s.h, s.buffer)).1,
   (s.len + input.length) % 2 ^ 64,
   (input.foldl feedByte (s.h, s.buffer)).2⟩

/-- Big-endian serialization of a 64-bit word into eight bytes. -/
def be64 (n : Nat) : List Nat :=
  [(n >>> 56) % 256, (n >>> 48) % 256, (n >>> 40) % 256, (n >>> 32) % 256,
   (n >>> 24) % 256, (n >>> 16) % 256, (n >>> 8) % 256, n % 256]

/-- Big-endian serialization of a 32-bit word into four bytes. -/
def be32 (n : Nat) : List Nat :=
  [(n >>> 24) % 256, (n >>> 16) % 256, (n >>> 8) % 256, n % 256]

/-- Number of zero bytes appended after the `0x80` marker so that the padded
length becomes congruent to 56 mod 64. -/
def padZeros (bufLen : Nat) : Nat := (120 - (bufLen + 1) % 64) % 64

/-- Modelled from the spec: the logical tail processed by
`BlockBuffer::len64_padding::<BE>` (crate `block_buffer`, not under `src/`),
spec §4.1: the buffered remainder, one `0x80` byte, zero fill to 56 mod 64,
then the big-endian 64-bit bit length `len <<< 3` (wrapping mod `2 ^ 64`). -/
def padMsg (s : Sha1) : List Nat :=
  s.buffer ++ 0x80 :: (List.replicate (padZeros s.buffer.length) 0 ++
    be64 ((s.len <<< 3) % 2 ^ 64))

/-- `FixedOutput::fixed_result`: pad, compress the final block(s), and
serialize the five state words big-endian. -/
def fixed_result (s : Sha1) : List Nat :=
  ((((padMsg s).foldl feedByte (s.h, [])).1.map be32).flatten)

/-- `Reset::reset`: restore the IV, zero length, empty buffer. -/
def reset (_ : Sha1) : Sha1 := ⟨H, 0, []⟩

/-- One-shot digest: fresh engine, one `update`, then `fixed_result`. -/
def digest (input : List Nat) : List Nat := fixed_result (update Sha1.default input)

/-!
Spec-side formulations, written directly from the claims' wording, to be
compared with the executable definitions above.
-/

/-- The message schedule as the spec's recurrence: `w[t]` for `t < 16` is the
`t`-th block word, and for `t ≥ 16` it is
`rotate_left(w[t-3] XOR w[t-8] XOR w[t-14] XOR w[t-16], 1)`. -/
def specW (ws : List Nat) (t : Nat) : Nat :=
  if t < 16 then ws.getD t 0
  else rotl 1 (specW ws (t - 3) ^^^ specW ws (t - 8) ^^^
               specW ws (t - 14) ^^^ specW ws (t - 16))
termination_by t
decreasing_by all_goals omega

/-- The working variables after `t` rounds of the spec's round recurrence:
`temp = rotate_left(a,5) + f + e + k + w[t]` mod `2 ^ 32`, then
`(a,b,c,d,e) = (temp, a, rotate_left(b,30), c, d)`. -/
def specRounds (ws : List Nat) (st : Nat × Nat × Nat × Nat × Nat) :
    Nat → Nat × Nat × Nat × Nat × Nat
  | 0 => st
  | t + 1 =>
    match specRounds ws st t with
    | (a, b, c, d, e) =>
        ((rotl 5 a + fval t b c d + e + kval t + specW ws t) % 2 ^ 32,
         a, rotl 30 b, c, d)

/-- The compression transform exactly as the claim states it: 16 big-endian
words, the `w` recurrence, 80 rounds, and a final modular addition. -/
def specCompress (state block : List Nat) : List Nat :=
  let ws := blockWords block
  match specRounds ws (state.getD 0 0, state.getD 1 0, state.getD 2 0,
                       state.getD 3 0, state.getD 4 0) 80 with
  | (a, b, c, d, e) =>
      [(state.getD 0 0 + a) % 2 ^ 32,
       (state.getD 1 0 + b) % 2 ^ 32,
       (state.getD 2 0 + c) % 2 ^ 32,
       (state.getD 3 0 + d) % 2 ^ 32,
       (state.getD 4 0 + e) % 2 ^ 32]

/-- Split a byte list into consecutive 64-byte chunks. -/
def chunksOf (l : List Nat) : List (List Nat) :=
  if hl : l = [] then [] else l.take 64 :: chunksOf (l.drop 64)
termination_by l.length
decreasing_by
  simp only [List.length_drop]
  have : 0 < l.length := List.length_pos.mpr hl
  omega

/-- Finalization exactly as the claim states it: compress every complete
64-byte block of the padded message into the state in order, then serialize
the five state words big-endian. -/
def specFinalize (s : Sha1) : List Nat :=
  (((chunksOf (padMsg s)).foldl compress s.h).map be32).flatten


lemma blockWords_length : ∀ (l : List Nat), (blockWords l).length = l.length / 4
  | b0 :: b1 :: b2 :: b3 :: rest => by
      have ih := blockWords_length rest
      simp [blockWords, ih]
      omega
  | [] => by simp [blockWords]
  | [_] => by simp [blockWords]
  | [_, _] => by simp [blockWords]
  | [_, _, _] => by simp [blockWords]

lemma getD_revMapRange (W : Nat → Nat) (m j : Nat) (hj : j < m) :
    (((List.range m).map W).reverse).getD j 0 = W (m - 1 - j) := by
  have hlen : (((List.range m).map W).reverse).length = m := by simp
  rw [List.getD_eq_getElem _ _ (by omega)]
  rw [List.getElem_reverse]
  simp [List.getElem_map, List.getElem_range]

lemma specW_lt (ws : List Nat) (t : Nat) (ht : t < 16) : specW ws t = ws.getD t 0 := by
  rw [specW]
  simp [ht]

lemma specW_ge (ws : List Nat) (t : Nat) (ht : 16 ≤ t) :
    specW ws t = rotl 1 (specW ws (t - 3) ^^^ specW ws (t - 8) ^^^
      specW ws (t - 14) ^^^ specW ws (t - 16)) := by
  rw [specW]
  simp [Nat.not_lt.mpr ht]

lemma mapRange_eq (ws : List Nat) (hws : ws.length = 16) :
    (List.range 16).map (specW ws) = ws := by
  apply List.ext_getElem
  · simp [hws]
  · intro i h1 h2
    simp only [List.getElem_map, List.getElem_range] at *
    rw [specW_lt ws i (by simpa using h1)]
    rw [List.getD_eq_getElem _ _ (by omega)]

lemma iterN_schedStep (ws : List Nat) (hws : ws.length = 16) (k : Nat) :
    iterN schedStep k ws.reverse = ((List.range (16 + k)).map (specW ws)).reverse := by
  induction k with
  | zero => rw [iterN, mapRange_eq ws hws]
  | succ k ih =>
      rw [iterN, ih]
      rw [schedStep]
      rw [getD_revMapRange _ _ 2 (by omega), getD_revMapRange _ _ 7 (by omega),
          getD_revMapRange _ _ 13 (by omega), getD_revMapRange _ _ 15 (by omega)]
      have h1 : 16 + k - 1 - 2 = (16 + k) - 3 := by omega
      have h2 : 16 + k - 1 - 7 = (16 + k) - 8 := by omega
      have h3 : 16 + k - 1 - 13 = (16 + k) - 14 := by omega
      have h4 : 16 + k - 1 - 15 = (16 + k) - 16 := by omega
      rw [h1, h2, h3, h4]
      rw [← specW_ge ws (16 + k) (by omega)]
      have : 16 + (k + 1) = (16 + k) + 1 := by omega
      rw [this, List.range_succ, List.map_append, List.reverse_append]
      simp

lemma schedule_eq (ws : List Nat) (hws : ws.length = 16) :
    (iterN schedStep 64 ws.reverse).reverse = (List.range 80).map (specW ws) := by
  rw [iterN_schedStep ws hws 64, List.reverse_reverse]

lemma foldl_roundStep (ws w : List Nat) (hw : ∀ t, t < 80 → w.getD t 0 = specW ws t)
    (st : Nat × Nat × Nat × Nat × Nat) (n : Nat) (hn : n ≤ 80) :
    (List.range n).foldl (roundStep w) st = specRounds ws st n := by
  induction n with
  | zero => simp [specRounds]
  | succ n ih =>
      rw [List.range_succ, List.foldl_append, ih (by omega)]
      rcases hsr : specRounds ws st n with ⟨a, b, c, d, e⟩
      simp only [List.foldl_cons, List.foldl_nil, roundStep, specRounds, hsr]
      rw [hw n (by omega)]

/-- C2 helper: the executable compression transform coincides with the
claim's recurrence formulation on 64-byte blocks. -/
lemma compress_eq_specCompress (state block : List Nat) (hb : block.length = 64) :
    compress state block = specCompress state block := by
  have hws : (blockWords block).length = 16 := by rw [blockWords_length, hb]
  have hsch := schedule_eq (blockWords block) hws
  have hw : ∀ t, t < 80 →
      ((iterN schedStep 64 (blockWords block).reverse).reverse).getD t 0 =
        specW (blockWords block) t := by
    intro t ht
    rw [hsch, List.getD_eq_getElem _ _ (by simp; omega)]
    simp [List.getElem_map, List.getElem_range]
  rw [compress, specCompress]
  rw [foldl_roundStep (blockWords block) _ hw _ 80 (by omega)]


lemma chunksOf_nil : chunksOf [] = [] := by
  rw [chunksOf]
  simp

lemma chunksOf_cons (l : List Nat) (h : l ≠ []) :
    chunksOf l = l.take 64 :: chunksOf (l.drop 64) := by
  rw [chunksOf]
  simp [h]

lemma foldl_feed_fill (l : List Nat) : ∀ (buf hh : List Nat),
    buf.length + l.length < 64 → l.foldl feedByte (hh, buf) = (hh, buf ++ l) := by
  induction l with
  | nil => intro buf hh _; simp
  | cons b l' ih =>
      intro buf hh hlt
      simp only [List.length_cons] at hlt
      simp only [List.foldl_cons]
      rw [feedByte, if_neg (by simp only [List.length_append, List.length_cons, List.length_nil]; omega)]
      rw [ih (buf ++ [b]) hh (by simp only [List.length_append, List.length_cons, List.length_nil]; omega)]
      simp

lemma foldl_feed_exact (l : List Nat) : ∀ (buf hh : List Nat),
    buf.length < 64 → buf.length + l.length = 64 →
    l.foldl feedByte (hh, buf) = (compress hh (buf ++ l), []) := by
  induction l with
  | nil =>
      intro buf hh hlt heq
      simp only [List.length_nil, Nat.add_zero] at heq
      omega
  | cons b l' ih =>
      intro buf hh hlt heq
      simp only [List.length_cons] at heq
      simp only [List.foldl_cons]
      by_cases hfull : (buf ++ [b]).length = 64
      · have hl' : l' = [] := by
          simp only [List.length_append, List.length_cons, List.length_nil] at hfull
          rw [← List.length_eq_zero]
          omega
        subst hl'
        rw [feedByte, if_pos hfull]
        simp
      · rw [feedByte, if_neg hfull]
        rw [ih (buf ++ [b]) hh (by simp at hfull ⊢; omega) (by simp at heq ⊢; omega)]
        simp

lemma foldl_feed_blocks (msg : List Nat) (hh : List Nat) (hm : msg.length % 64 = 0) :
    msg.foldl feedByte (hh, []) = ((chunksOf msg).foldl compress hh, []) := by
  by_cases hne : msg = []
  · subst hne
    simp [chunksOf_nil]
  · have hpos : 0 < msg.length := List.length_pos.mpr hne
    have hlen : 64 ≤ msg.length := by omega
    have htlen : (msg.take 64).length = 64 := by simp [List.length_take]; omega
    have hdlen : (msg.drop 64).length % 64 = 0 := by simp [List.length_drop]; omega
    have hrec := foldl_feed_blocks (msg.drop 64) (compress hh (msg.take 64)) hdlen
    calc msg.foldl feedByte (hh, [])
        = (msg.drop 64).foldl feedByte ((msg.take 64).foldl feedByte (hh, [])) := by
          conv_lhs => rw [← List.take_append_drop 64 msg, List.foldl_append]
      _ = (msg.drop 64).foldl feedByte (compress hh (msg.take 64), []) := by
          rw [foldl_feed_exact _ [] hh (by simp) (by simp [htlen])]
          simp
      _ = ((chunksOf (msg.drop 64)).foldl compress (compress hh (msg.take 64)), []) := hrec
      _ = ((chunksOf msg).foldl compress hh, []) := by
          rw [chunksOf_cons msg hne]
          simp
termination_by msg.length
decreasing_by
  simp only [List.length_drop]
  have : 0 < msg.length := List.length_pos.mpr hne
  omega

lemma foldl_feed_bufLen (l : List Nat) : ∀ (buf hh : List Nat), buf.length < 64 →
    ((l.foldl feedByte (hh, buf)).2).length = (buf.length + l.length) % 64 := by
  induction l with
  | nil => intro buf hh hlt; simp [Nat.mod_eq_of_lt hlt]
  | cons b l' ih =>
      intro buf hh hlt
      simp only [List.foldl_cons]
      by_cases hfull : (buf ++ [b]).length = 64
      · rw [feedByte, if_pos hfull]
        rw [ih [] _ (by simp)]
        simp at hfull ⊢
        omega
      · rw [feedByte, if_neg hfull]
        rw [ih (buf ++ [b]) hh (by simp at hfull ⊢; omega)]
        simp
        omega

lemma update_append (s : Sha1) (a b : List Nat) :
    update (update s a) b = update s (a ++ b) := by
  simp only [update, List.foldl_append, List.length_append, Nat.mod_add_mod,
    Nat.add_assoc]

lemma update_nil (s : Sha1) (hlen : s.len < 2 ^ 64) : update s [] = s := by
  cases s with
  | mk h len buffer =>
      simp only [update, List.foldl_nil, List.length_nil, Nat.add_zero]
      simp at hlen
      simp [Nat.mod_eq_of_lt hlen]

lemma update_len_lt (s : Sha1) (input : List Nat) : (update s input).len < 2 ^ 64 := by
  simp only [update]
  exact Nat.mod_lt _ (by norm_num)

lemma foldl_update (parts : List (List Nat)) : ∀ s : Sha1, s.len < 2 ^ 64 →
    parts.foldl update s = update s parts.flatten := by
  induction parts with
  | nil => intro s hs; simp [update_nil s hs]
  | cons p ps ih =>
      intro s hs
      simp only [List.foldl_cons, List.flatten_cons]
      rw [ih (update s p) (update_len_lt s p), update_append]

lemma compress_length (st blk : List Nat) : (compress st blk).length = 5 := rfl

lemma foldl_compress_length (cs : List (List Nat)) :
    ∀ (hh c : List Nat), ((c :: cs).foldl compress hh).length = 5 := by
  induction cs with
  | nil => intro hh c; exact compress_length hh c
  | cons c' cs' ih => intro hh c; exact ih (compress hh c) c'

lemma flatten_be32_len (l : List Nat) (hl : l.length = 5) :
    ((l.map be32).flatten).length = 20 := by
  match l, hl with
  | [a, b, c, d, e], _ => rfl

lemma padZeros_spec (n : Nat) : (n + 1 + padZeros n) % 64 = 56 := by
  rw [padZeros]
  omega

lemma padMsg_len (s : Sha1) :
    (padMsg s).length = s.buffer.length + 1 + padZeros s.buffer.length + 8 := by
  simp [padMsg, be64]
  omega

lemma padMsg_mod (s : Sha1) : (padMsg s).length % 64 = 0 := by
  rw [padMsg_len]
  have := padZeros_spec s.buffer.length
  omega

lemma padMsg_ne (s : Sha1) : padMsg s ≠ [] := by
  simp [padMsg]

lemma fixed_result_eq_chunks (s : Sha1) :
    fixed_result s = (((chunksOf (padMsg s)).foldl compress s.h).map be32).flatten := by
  rw [fixed_result, foldl_feed_blocks _ _ (padMsg_mod s)]

lemma fixed_result_len (s : Sha1) : (fixed_result s).length = 20 := by
  rw [fixed_result_eq_chunks]
  apply flatten_be32_len
  rw [chunksOf_cons _ (padMsg_ne s)]
  exact foldl_compress_length _ _ _


/-- C1: a fresh engine fed the whole input via `update` and finalized with
`fixed_result` reproduces the published SHA-1 test vectors for the empty
string, `"abc"`, and `"hello world"`. -/
theorem claim_C1_known_vectors :
    digest [] = [0xda, 0x39, 0xa3, 0xee, 0x5e, 0x6b, 0x4b, 0x0d, 0x32, 0x55,
                 0xbf, 0xef, 0x95, 0x60, 0x18, 0x90, 0xaf, 0xd8, 0x07, 0x09] ∧
    digest [0x61, 0x62, 0x63] =
      [0xa9, 0x99, 0x3e, 0x36, 0x47, 0x06, 0x81, 0x6a, 0xba, 0x3e,
       0x25, 0x71, 0x78, 0x50, 0xc2, 0x6c, 0x9c, 0xd0, 0xd8, 0x9d] ∧
    digest [0x68, 0x65, 0x6c, 0x6c, 0x6f, 0x20, 0x77, 0x6f, 0x72, 0x6c, 0x64] =
      [0x2a, 0xae, 0x6c, 0x35, 0xc9, 0x4f, 0xcf, 0xb4, 0x15, 0xdb,
       0xe9, 0x5f, 0x40, 0x8b, 0x9c, 0xe9, 0x1e, 0xe8, 0x46, 0xed] :=
  ⟨by decide, by decide, by decide⟩

/-- C2: on every state and every 64-byte block, the compression transform
computes exactly the FIPS 180-4 round function as stated by the claim's
recurrence formulation (`specCompress`). -/
theorem claim_C2_compress_fips (state block : List Nat) (hb : block.length = 64) :
    compress state block = specCompress state block :=
  compress_eq_specCompress state block hb

/-- C2 witness: the equivalence instantiated on the all-zero block. -/
theorem claim_C2_witness :
    (List.replicate 64 0).length = 64 ∧
    compress H (List.replicate 64 0) = specCompress H (List.replicate 64 0) :=
  ⟨by decide, claim_C2_compress_fips H (List.replicate 64 0) (by decide)⟩

/-- C3: finalization follows the exact padding procedure: after the `0x80`
marker the zero fill makes the buffered length congruent to 56 mod 64, and the
digest equals compressing each complete 64-byte block of the padded message in
order and serializing the five state words big-endian (`specFinalize`). -/
theorem claim_C3_finalize_padding (s : Sha1) :
    (s.buffer.length + 1 + padZeros s.buffer.length) % 64 = 56 ∧
    fixed_result s = specFinalize s :=
  ⟨padZeros_spec s.buffer.length, by rw [fixed_result_eq_chunks, specFinalize]⟩

/-- C4: chunking invariance: feeding any partition of an input through
sequential `update` calls on a fresh engine gives the same digest as feeding
the concatenation in a single `update` call. -/
theorem claim_C4_chunking (parts : List (List Nat)) :
    fixed_result (parts.foldl update Sha1.default) =
      fixed_result (update Sha1.default parts.flatten) := by
  rw [foldl_update parts Sha1.default (by simp [Sha1.default])]

/-- C5: `reset` restores the IV constants, zero length, and empty buffer, so
the reset engine is observably identical to a freshly constructed one under
any subsequent updates and finalization. -/
theorem claim_C5_reset (s : Sha1) :
    (reset s).h = H ∧ (reset s).len = 0 ∧ (reset s).buffer = [] ∧
    reset s = Sha1.default ∧
    ∀ parts : List (List Nat),
      fixed_result (parts.foldl update (reset s)) =
        fixed_result (parts.foldl update Sha1.default) :=
  ⟨rfl, rfl, rfl, rfl, fun _ => rfl⟩

/-- C6: the length counter is modular over 64 bits: `update` adds the input
length mod `2 ^ 64`, and the padding ends with the big-endian encoding of the
bit length `len * 8` reduced mod `2 ^ 64` (the shifted-out bits of `len <<< 3`
are discarded). -/
theorem claim_C6_length_counter (s : Sha1) (input : List Nat) :
    (update s input).len = (s.len + input.length) % 2 ^ 64 ∧
    (padMsg s).drop (s.buffer.length + 1 + padZeros s.buffer.length) =
      be64 ((s.len * 8) % 2 ^ 64) := by
  constructor
  · rfl
  · rw [padMsg]
    have hassoc :
        s.buffer ++ 0x80 :: (List.replicate (padZeros s.buffer.length) 0 ++
          be64 ((s.len <<< 3) % 2 ^ 64)) =
        (s.buffer ++ 0x80 :: List.replicate (padZeros s.buffer.length) 0) ++
          be64 ((s.len <<< 3) % 2 ^ 64) := by simp
    rw [hassoc]
    have hl : (s.buffer ++ 0x80 :: List.replicate (padZeros s.buffer.length) 0).length
        = s.buffer.length + 1 + padZeros s.buffer.length := by
      simp only [List.length_append, List.length_cons, List.length_replicate]
      omega
    rw [← hl, List.drop_left]
    have h8 : s.len <<< 3 = s.len * 8 := by
      rw [Nat.shiftLeft_eq]
    rw [h8]

/-- C7: `update` and `fixed_result` are total in the embedding: for every
engine state and every input (of any length, empty included) the updated
engine finalizes to a digest, and every finalization yields exactly 20
bytes. -/
theorem claim_C7_infallible (s : Sha1) (input : List Nat) :
    (fixed_result s).length = 20 ∧ (fixed_result (update s input)).length = 20 :=
  ⟨fixed_result_len s, fixed_result_len (update s input)⟩

/-- C8: the buffer length invariant: starting from any state whose buffer
holds fewer than 64 bytes, after `update` the buffer holds exactly
`(old + input) % 64` bytes, hence fewer than 64; construction and `reset`
give an empty buffer. -/
theorem claim_C8_buffer_invariant (s : Sha1) (input : List Nat)
    (hbuf : s.buffer.length < 64) :
    (update s input).buffer.length = (s.buffer.length + input.length) % 64 ∧
    (update s input).buffer.length < 64 ∧
    Sha1.default.buffer.length = 0 ∧ (reset s).buffer.length = 0 := by
  have hb : (update s input).buffer.length = (s.buffer.length + input.length) % 64 :=
    foldl_feed_bufLen input s.buffer s.h hbuf
  exact ⟨hb, by rw [hb]; exact Nat.mod_lt _ (by norm_num), rfl, rfl⟩

/-- C8 witness: the invariant instantiated on a fresh engine and a 3-byte
input. -/
theorem claim_C8_witness :
    Sha1.default.buffer.length < 64 ∧
    (update Sha1.default [1, 2, 3]).buffer.length =
      (Sha1.default.buffer.length + [1, 2, 3].length) % 64 :=
  ⟨by decide, (claim_C8_buffer_invariant Sha1.default [1, 2, 3] (by decide)).1⟩

/-- C9: clone independence: branching a mid-stream engine (a pure value, so
the clone and the original share no mutable state) and feeding different
suffixes yields the digests of the respective full concatenations. -/
theorem claim_C9_clone (P A B : List Nat) :
    fixed_result (update (update Sha1.default P) A) =
      fixed_result (update Sha1.default (P ++ A)) ∧
    fixed_result (update (update Sha1.default P) B) =
      fixed_result (update Sha1.default (P ++ B)) := by
  rw [update_append, update_append]
  exact ⟨rfl, rfl⟩

/-- C10: updating with the empty byte sequence is the identity on every
engine state whose 64-bit length counter is in range: no compression runs and
state, buffer, and length are unchanged. -/
theorem claim_C10_update_nil (s : Sha1) (hlen : s.len < 2 ^ 64) :
    update s [] = s :=
  update_nil s hlen

/-- C10 witness: the identity instantiated on a fresh engine. -/
theorem claim_C10_witness :
    Sha1.default.len < 2 ^ 64 ∧ update Sha1.default [] = Sha1.default :=
  ⟨by decide, claim_C10_update_nil Sha1.default (by decide)⟩

end Sha1Embed
